import Mathlib

/-!
Verification of the SO(3) representation-polymorphic rotation interface
from dart/math/SO3Base.hpp.

The shallow embedding models the scalar type as the real numbers, the
rotation-matrix storage as 3 by 3 real matrices and the tangent storage as
functions from Fin 3 to the reals.  Operations whose bodies live in
SO3Base.hpp (Hat, Vee, the cross-representation equality, the canonical
dispatch, the default isApprox tolerance) are translated from that source.
Operations whose bodies live in the detail header or in the concrete
representation classes, which are not part of the sources here, are
modelled from the specification; each such definition says so in its doc
comment.
-/

namespace DartMath

noncomputable section

/-- The matrix storage type of SO3Base, RotationMatrixType, a 3 by 3 real matrix. -/
abbrev RotationMatrixType : Type := Matrix (Fin 3) (Fin 3) ℝ

/-- The tangent type of SO3Base (Tangent, also named so3), a real 3-vector. -/
abbrev Tangent : Type := Fin 3 → ℝ

/-- SO3Base Hat, source lines 230 to 238: builds the matrix row by row as
0, -v2, v1 / v2, 0, -v0 / -v1, v0, 0. -/
def Hat (angleAxis : Tangent) : RotationMatrixType :=
  Matrix.of
    ![![0, -angleAxis 2, angleAxis 1],
      ![angleAxis 2, 0, -angleAxis 0],
      ![-angleAxis 1, angleAxis 0, 0]]

/-- SO3Base Vee, source lines 240 to 244: reads the entries (2,1), (0,2), (1,0). -/
def Vee (m : RotationMatrixType) : Tangent :=
  ![m 2 1, m 0 2, m 1 0]

/-- Euclidean norm of a tangent vector, the rotation angle of a rotation vector. -/
def tangentNorm (v : Tangent) : ℝ :=
  Real.sqrt (v 0 ^ 2 + v 1 ^ 2 + v 2 ^ 2)

/-- Modelled from the spec: the rotation-vector to rotation-matrix conversion
used by Exp (convert of RotationVectorRep into the canonical representation,
whose body is in the missing detail header), the Rodrigues rotation formula
R = I + (sin t / t) Hat v + ((1 - cos t) / t^2) (Hat v)^2 with t the norm of v. -/
def ExpMat (v : Tangent) : RotationMatrixType :=
  1 + (Real.sin (tangentNorm v) / tangentNorm v) • Hat v
    + ((1 - Real.cos (tangentNorm v)) / tangentNorm v ^ 2) • (Hat v * Hat v)

/-- Rotation angle of a rotation matrix, the principal value recovered from the
trace: arccos ((tr R - 1) / 2). -/
def rotAngle (R : RotationMatrixType) : ℝ :=
  Real.arccos ((Matrix.trace R - 1) / 2)

/-- Modelled from the spec: the rotation-matrix to rotation-vector conversion
used by Log (convert of the canonical representation into RotationVectorRep,
whose body is in the missing detail header), the inverse Rodrigues formula with
the principal angle in [0, pi]: (t / (2 sin t)) Vee (R - R transposed). -/
def LogVec (R : RotationMatrixType) : Tangent :=
  (rotAngle R / (2 * Real.sin (rotAngle R))) • Vee (R - R.transpose)

/-- Validity of a rotation-matrix payload: a member of SO(3). -/
def isRotation (R : RotationMatrixType) : Prop :=
  R.transpose * R = 1 ∧ R.det = 1

/-- The representation tags instantiated by the model: the canonical
rotation-matrix representation and the rotation-vector representation
(RotationMatrixRep and RotationVectorRep in the source). -/
inductive SO3Rep : Type
  | rotMatrix : SO3Rep
  | rotVector : SO3Rep
deriving DecidableEq

/-- A rotation element: a representation tag together with its RepData payload. -/
inductive SO3El : Type
  | mat : RotationMatrixType → SO3El
  | vec : Tangent → SO3El

/-- The representation tag of an element. -/
def SO3El.rep : SO3El → SO3Rep
  | .mat _ => .rotMatrix
  | .vec _ => .rotVector

/-- SO3Base toRotationMatrix, source lines 248 to 253, converts into the
canonical rotation-matrix image.  For the canonical representation this is the
payload itself; for the rotation-vector representation the conversion body is
in the missing detail header and is modelled from the spec as the Rodrigues
formula. -/
def SO3El.toRotationMatrix : SO3El → RotationMatrixType
  | .mat R => R
  | .vec v => ExpMat v

/-- Validity of an element: the payload encodes a member of SO(3).  Every
rotation-vector payload is valid. -/
def SO3El.valid : SO3El → Prop
  | .mat R => isRotation R
  | .vec _ => True

/-- SO3Base isCanonical, source lines 308 to 311: true exactly on the canonical
rotation-matrix representation. -/
def SO3El.isCanonical : SO3El → Bool
  | .mat _ => true
  | .vec _ => false

/-- SO3Base canonical, source lines 298 to 333: dispatches on is_canonical; a
canonical element is returned unchanged, otherwise the canonical element is
constructed from this one (that constructor converts through the canonical
image, modelled from the spec). -/
def SO3El.canonical : SO3El → SO3El
  | .mat R => .mat R
  | .vec v => .mat (ExpMat v)

/-- Cross-representation equality operator, source lines 152 to 156: compares
the two canonical rotation-matrix images entrywise exactly. -/
def SO3El.eqCross (a b : SO3El) : Prop :=
  ∀ i j, a.toRotationMatrix i j = b.toRotationMatrix i j

/-- Modelled from the spec: the representation-specific identity encoding set
by setIdentity (identity matrix for the canonical representation, zero
rotation vector for the rotation-vector representation); the derived bodies
are in the missing representation classes. -/
def identityOf : SO3Rep → SO3El
  | .rotMatrix => .mat 1
  | .rotVector => .vec 0

/-- Modelled from the spec: isIdentity is true iff the element equals the
identity encoding of its own representation; the derived bodies are in the
missing representation classes. -/
def SO3El.isIdentity (a : SO3El) : Prop :=
  a = identityOf a.rep

/-- SO3Base Exp, source lines 218 to 222: Derived of the conversion of the
tangent from RotationVectorRep into the representation Rep.  Modelled from the
spec: the missing conversion uses the direct rule (a copy) for the
same-representation pair and the Rodrigues formula into the canonical
representation. -/
def ExpIn : SO3Rep → Tangent → SO3El
  | .rotMatrix, v => .mat (ExpMat v)
  | .rotVector, v => .vec v

/-- SO3Base group multiplication, source lines 129 to 145; the in-place
multiplication body is in the missing detail header.  Modelled from the spec:
the right operand is converted into a form the left representation accepts,
the composition happens on canonical images, and the result is stored in the
representation of the left operand. -/
def SO3El.mul (a b : SO3El) : SO3El :=
  match a with
  | .mat R => .mat (R * b.toRotationMatrix)
  | .vec v => .vec (LogVec (ExpMat v * b.toRotationMatrix))

/-- SO3Base getInverse, source lines 204 to 207, delegates to the derived
inverse.  Modelled from the spec: transpose for the matrix representation and
negated vector for the rotation-vector representation. -/
def SO3El.getInverse : SO3El → SO3El
  | .mat R => .mat R.transpose
  | .vec v => .vec (-v)

/-- Approximate equality of two matrices: every entry within tol. -/
def matIsApprox (M N : RotationMatrixType) (tol : ℝ) : Prop :=
  ∀ i j, |M i j - N i j| ≤ tol

/-- Componentwise approximate equality of two tangent vectors. -/
def vecIsApprox (u v : Tangent) (tol : ℝ) : Prop :=
  ∀ i, |u i - v i| ≤ tol

/-- Modelled from the spec: isApprox compares with a rotation-matrix closeness
metric, consistently across representations; the body is in the missing detail
header. -/
def SO3El.isApprox (a b : SO3El) (tol : ℝ) : Prop :=
  matIsApprox a.toRotationMatrix b.toRotationMatrix tol

/-- The default tolerance of SO3Base isApprox, source line 212. -/
def defaultApproxTol : ℝ := 1e-6

/-- isApprox with the default tolerance argument of source line 212. -/
def SO3El.isApproxDefault (a b : SO3El) : Prop :=
  a.isApprox b defaultApproxTol

/-- SO3Base getCoordinates and convert, source lines 263 to 270; the
conversion bodies are in the missing detail header.  Modelled from the spec:
the direct rule (a copy) for a same-representation pair, otherwise the pivot
through the canonical representation, with the rotation-vector legs given by
the Rodrigues formula and its principal-value inverse. -/
def convertTo : SO3Rep → SO3El → SO3El
  | .rotMatrix, a => .mat a.toRotationMatrix
  | .rotVector, .mat R => .vec (LogVec R)
  | .rotVector, .vec v => .vec v

/-- Concrete skew-symmetric matrix used in the checks. -/
def skewExample : RotationMatrixType :=
  Matrix.of ![![(0:ℝ), -3, 2], ![3, 0, -1], ![-2, 1, 0]]

/-- The rotation by pi about the z axis, used in the checks. -/
def RpiZ : RotationMatrixType :=
  Matrix.of ![![(-1:ℝ), 0, 0], ![0, -1, 0], ![0, 0, 1]]

/-- A tangent vector of norm 2 pi, used in the checks. -/
def twoPiVec : Tangent := ![2 * Real.pi, 0, 0]

/-! Helper lemmas about Hat and Vee. -/

theorem vee_hat (v : Tangent) : Vee (Hat v) = v := by
  funext i
  fin_cases i <;> simp [Hat, Vee]

theorem hat_transpose_eq_neg (v : Tangent) : (Hat v).transpose = -(Hat v) := by
  ext i j
  fin_cases i <;> fin_cases j <;> simp [Hat, Matrix.transpose_apply]

theorem hat_vee_skew (M : RotationMatrixType) (h : M.transpose = -M) :
    Hat (Vee M) = M := by
  have he : ∀ i j, M j i = -M i j := by
    intro i j
    have := congrFun (congrFun h i) j
    simpa [Matrix.transpose_apply] using this
  ext i j
  fin_cases i <;> fin_cases j <;>
    simp [Hat, Vee] <;>
    first
      | linarith [he 0 0]
      | linarith [he 1 1]
      | linarith [he 2 2]
      | linarith [he 0 1]
      | linarith [he 0 2]
      | linarith [he 1 2]

theorem hat_smul (c : ℝ) (v : Tangent) : Hat (c • v) = c • Hat v := by
  ext i j
  fin_cases i <;> fin_cases j <;>
    simp [Hat, Matrix.smul_apply, Pi.smul_apply, smul_eq_mul]

theorem hat_neg (v : Tangent) : Hat (-v) = -(Hat v) := by
  ext i j
  fin_cases i <;> fin_cases j <;>
    simp [Hat, Matrix.neg_apply, Pi.neg_apply]

theorem hat_zero_eq : Hat 0 = 0 := by
  ext i j
  fin_cases i <;> fin_cases j <;>
    simp [Hat, Matrix.vecHead, Matrix.vecTail]

theorem hat_cube (v : Tangent) :
    Hat v * Hat v * Hat v = (-(v 0 ^ 2 + v 1 ^ 2 + v 2 ^ 2)) • Hat v := by
  ext i j
  fin_cases i <;> fin_cases j <;>
    simp [Hat, Matrix.mul_apply, Fin.sum_univ_three, Matrix.smul_apply,
      smul_eq_mul] <;> ring

theorem trace_hat_eq (v : Tangent) : Matrix.trace (Hat v) = 0 := by
  simp [Matrix.trace_fin_three, Hat]

theorem trace_hat_sq_eq (v : Tangent) :
    Matrix.trace (Hat v * Hat v) = -2 * (v 0 ^ 2 + v 1 ^ 2 + v 2 ^ 2) := by
  simp [Matrix.trace_fin_three, Hat, Matrix.mul_apply, Fin.sum_univ_three]
  ring

/-! Helper lemmas about the tangent norm. -/

theorem tangentNorm_nonneg (v : Tangent) : 0 ≤ tangentNorm v :=
  Real.sqrt_nonneg _

theorem tangentNorm_sq_eq (v : Tangent) :
    tangentNorm v ^ 2 = v 0 ^ 2 + v 1 ^ 2 + v 2 ^ 2 := by
  have h : 0 ≤ v 0 ^ 2 + v 1 ^ 2 + v 2 ^ 2 := by positivity
  simpa [tangentNorm] using Real.sq_sqrt h

theorem tangentNorm_eq_zero_iff (v : Tangent) : tangentNorm v = 0 ↔ v = 0 := by
  constructor
  · intro h
    have hsq : v 0 ^ 2 + v 1 ^ 2 + v 2 ^ 2 = 0 := by
      have := tangentNorm_sq_eq v
      rw [h] at this
      linarith [this]
    have h0 : v 0 = 0 := by nlinarith [sq_nonneg (v 0), sq_nonneg (v 1), sq_nonneg (v 2)]
    have h1 : v 1 = 0 := by nlinarith [sq_nonneg (v 0), sq_nonneg (v 1), sq_nonneg (v 2)]
    have h2 : v 2 = 0 := by nlinarith [sq_nonneg (v 0), sq_nonneg (v 1), sq_nonneg (v 2)]
    funext i
    fin_cases i <;> assumption
  · intro h
    subst h
    simp [tangentNorm]

theorem tangentNorm_neg_eq (v : Tangent) : tangentNorm (-v) = tangentNorm v := by
  simp [tangentNorm]

/-! Helper lemmas about the Rodrigues exponential. -/

theorem expMat_zero_eq : ExpMat 0 = 1 := by
  simp [ExpMat, hat_zero_eq]

theorem hat_sq_transpose_eq (v : Tangent) :
    (Hat v * Hat v).transpose = Hat v * Hat v := by
  rw [Matrix.transpose_mul, hat_transpose_eq_neg, Matrix.neg_mul, Matrix.mul_neg,
    neg_neg]

theorem expMat_transpose_eq (v : Tangent) :
    (ExpMat v).transpose = ExpMat (-v) := by
  have hn : tangentNorm (-v) = tangentNorm v := tangentNorm_neg_eq v
  rw [ExpMat, ExpMat, Matrix.transpose_add, Matrix.transpose_add,
    Matrix.transpose_one, Matrix.transpose_smul, Matrix.transpose_smul,
    hat_transpose_eq_neg, hat_sq_transpose_eq, hn, hat_neg]
  rw [Matrix.neg_mul, Matrix.mul_neg, neg_neg]

theorem expMat_neg_eq (v : Tangent) :
    ExpMat (-v) = 1 + (-(Real.sin (tangentNorm v) / tangentNorm v)) • Hat v
      + ((1 - Real.cos (tangentNorm v)) / tangentNorm v ^ 2) • (Hat v * Hat v) := by
  rw [ExpMat, tangentNorm_neg_eq, hat_neg, Matrix.neg_mul, Matrix.mul_neg, neg_neg,
    smul_neg, ← neg_smul]

theorem rodrigues_prod_aux (v : Tangent) (s b : ℝ)
    (h : 2 * b - s ^ 2 - b ^ 2 * (v 0 ^ 2 + v 1 ^ 2 + v 2 ^ 2) = 0) :
    (1 + s • Hat v + b • (Hat v * Hat v)) *
      (1 + (-s) • Hat v + b • (Hat v * Hat v)) = 1 := by
  ext i j
  fin_cases i <;> fin_cases j <;>
    simp [Hat, Matrix.mul_apply, Fin.sum_univ_three, Matrix.add_apply,
      Matrix.smul_apply, Matrix.one_apply, smul_eq_mul] <;>
    first
      | linear_combination (-(v 1 ^ 2) - v 2 ^ 2) * h
      | linear_combination (-(v 0 ^ 2) - v 2 ^ 2) * h
      | linear_combination (-(v 0 ^ 2) - v 1 ^ 2) * h
      | linear_combination (v 0 * v 1) * h
      | linear_combination (v 0 * v 2) * h
      | linear_combination (v 1 * v 2) * h

theorem expMat_mul_expMat_neg (v : Tangent) : ExpMat v * ExpMat (-v) = 1 := by
  by_cases hv : v = 0
  · subst hv
    rw [neg_zero, expMat_zero_eq, one_mul]
  · have hθ : tangentNorm v ≠ 0 := fun h => hv ((tangentNorm_eq_zero_iff v).1 h)
    rw [ExpMat, expMat_neg_eq]
    apply rodrigues_prod_aux
    rw [← tangentNorm_sq_eq]
    have hpyth := Real.sin_sq_add_cos_sq (tangentNorm v)
    field_simp
    linear_combination (-(tangentNorm v ^ 4)) * hpyth

theorem det_rodrigues (v : Tangent) (s b : ℝ) :
    (1 + s • Hat v + b • (Hat v * Hat v)).det
      = (1 - b * (v 0 ^ 2 + v 1 ^ 2 + v 2 ^ 2)) ^ 2
        + s ^ 2 * (v 0 ^ 2 + v 1 ^ 2 + v 2 ^ 2) := by
  rw [Matrix.det_fin_three]
  simp [Hat, Matrix.mul_apply, Fin.sum_univ_three, Matrix.add_apply,
    Matrix.smul_apply, Matrix.one_apply, smul_eq_mul]
  ring

theorem isRotation_expMat (v : Tangent) : isRotation (ExpMat v) := by
  constructor
  · rw [expMat_transpose_eq]
    have h := expMat_mul_expMat_neg (-v)
    rwa [neg_neg] at h
  · by_cases hv : v = 0
    · subst hv
      rw [expMat_zero_eq]
      simp
    · have hθ : tangentNorm v ≠ 0 := fun h => hv ((tangentNorm_eq_zero_iff v).1 h)
      rw [ExpMat, det_rodrigues, ← tangentNorm_sq_eq]
      field_simp

theorem trace_expMat_eq (v : Tangent) :
    Matrix.trace (ExpMat v) = 1 + 2 * Real.cos (tangentNorm v) := by
  by_cases hv : v = 0
  · subst hv
    rw [expMat_zero_eq]
    have hn : tangentNorm (0 : Tangent) = 0 := by simp [tangentNorm]
    simp [Matrix.trace_one, hn]
    norm_num
  · have hθ : tangentNorm v ≠ 0 := fun h => hv ((tangentNorm_eq_zero_iff v).1 h)
    rw [ExpMat, Matrix.trace_add, Matrix.trace_add, Matrix.trace_smul,
      Matrix.trace_smul, trace_hat_eq, trace_hat_sq_eq, Matrix.trace_one,
      ← tangentNorm_sq_eq]
    simp only [smul_eq_mul, Fintype.card_fin]
    field_simp
    ring

theorem rotAngle_expMat_eq (v : Tangent) (h : tangentNorm v ≤ Real.pi) :
    rotAngle (ExpMat v) = tangentNorm v := by
  rw [rotAngle, trace_expMat_eq]
  have hc : (1 + 2 * Real.cos (tangentNorm v) - 1) / 2 = Real.cos (tangentNorm v) := by
    ring
  rw [hc, Real.arccos_cos (tangentNorm_nonneg v) h]

theorem vee_smul (c : ℝ) (M : RotationMatrixType) : Vee (c • M) = c • Vee M := by
  funext i
  fin_cases i <;> simp [Vee, Matrix.smul_apply, Pi.smul_apply]

theorem expMat_sub_transpose_eq (v : Tangent) :
    ExpMat v - (ExpMat v).transpose
      = (2 * (Real.sin (tangentNorm v) / tangentNorm v)) • Hat v := by
  rw [expMat_transpose_eq, expMat_neg_eq, ExpMat]
  module

theorem logVec_one_eq : LogVec 1 = 0 := by
  funext i
  fin_cases i <;>
    simp [LogVec, Vee, Matrix.transpose_one]

theorem logVec_expMat (v : Tangent) (h : tangentNorm v < Real.pi) :
    LogVec (ExpMat v) = v := by
  by_cases hv : v = 0
  · subst hv
    rw [expMat_zero_eq, logVec_one_eq]
  · have hθ : tangentNorm v ≠ 0 := fun hz => hv ((tangentNorm_eq_zero_iff v).1 hz)
    have hθpos : 0 < tangentNorm v :=
      lt_of_le_of_ne (tangentNorm_nonneg v) (Ne.symm hθ)
    have hsin : 0 < Real.sin (tangentNorm v) :=
      Real.sin_pos_of_pos_of_lt_pi hθpos h
    rw [LogVec, rotAngle_expMat_eq v (le_of_lt h), expMat_sub_transpose_eq,
      vee_smul, vee_hat, smul_smul]
    have hone : tangentNorm v / (2 * Real.sin (tangentNorm v))
        * (2 * (Real.sin (tangentNorm v) / tangentNorm v)) = 1 := by
      field_simp
    rw [hone, one_smul]

/-! Polynomial identities for 3 by 3 matrices and the SO(3) structure facts
needed for the logarithm. -/

theorem cayley_hamilton_fin_three (M : Matrix (Fin 3) (Fin 3) ℝ) :
    M * M * M
      = Matrix.trace M • (M * M)
        - ((Matrix.trace M ^ 2 - Matrix.trace (M * M)) / 2) • M
        + M.det • 1 := by
  ext i j
  fin_cases i <;> fin_cases j <;>
    simp [Matrix.mul_apply, Fin.sum_univ_three, Matrix.trace_fin_three,
      Matrix.det_fin_three, Matrix.smul_apply, Matrix.one_apply,
      Matrix.sub_apply, Matrix.add_apply, smul_eq_mul] <;>
    ring

theorem trace_adjugate_fin_three (M : Matrix (Fin 3) (Fin 3) ℝ) :
    Matrix.trace (Matrix.adjugate M)
      = (Matrix.trace M ^ 2 - Matrix.trace (M * M)) / 2 := by
  rw [Matrix.adjugate_fin_three]
  simp [Matrix.trace_fin_three, Matrix.mul_apply, Fin.sum_univ_three]
  ring

theorem adjugate_eq_transpose_of_rotation (R : RotationMatrixType)
    (hR : isRotation R) : Matrix.adjugate R = R.transpose := by
  obtain ⟨horth, hdet⟩ := hR
  have hmul : R * Matrix.adjugate R = 1 := by
    rw [Matrix.mul_adjugate, hdet, one_smul]
  calc Matrix.adjugate R = 1 * Matrix.adjugate R := (one_mul _).symm
    _ = R.transpose * R * Matrix.adjugate R := by rw [horth]
    _ = R.transpose * (R * Matrix.adjugate R) := by rw [Matrix.mul_assoc]
    _ = R.transpose := by rw [hmul, mul_one]

theorem trace_sq_of_rotation (R : RotationMatrixType) (hR : isRotation R) :
    Matrix.trace (R * R) = Matrix.trace R ^ 2 - 2 * Matrix.trace R := by
  have h1 : Matrix.trace (Matrix.adjugate R) = Matrix.trace R := by
    rw [adjugate_eq_transpose_of_rotation R hR, Matrix.trace_transpose]
  have h2 := trace_adjugate_fin_three R
  rw [h1] at h2
  linarith

theorem cube_of_rotation (R : RotationMatrixType) (hR : isRotation R) :
    R * R * R = Matrix.trace R • (R * R) - Matrix.trace R • R + 1 := by
  have h := cayley_hamilton_fin_three R
  rw [trace_sq_of_rotation R hR] at h
  have hc : (Matrix.trace R ^ 2 - (Matrix.trace R ^ 2 - 2 * Matrix.trace R)) / 2
      = Matrix.trace R := by ring
  rw [hc, hR.2, one_smul] at h
  exact h

theorem transpose_sq_of_rotation (R : RotationMatrixType) (hR : isRotation R) :
    R.transpose * R.transpose
      = R + Matrix.trace R • R.transpose - Matrix.trace R • 1 := by
  obtain ⟨horth, hdet⟩ := hR
  have hmul : R * R.transpose = 1 := Matrix.mul_eq_one_comm.mp horth
  have hB : R * (R.transpose * R.transpose) = R.transpose := by
    rw [← Matrix.mul_assoc, hmul, one_mul]
  have hA : R * R * (R.transpose * R.transpose) = 1 := by
    rw [Matrix.mul_assoc, hB, hmul]
  have hL : R * R * R * (R.transpose * R.transpose) = R := by
    rw [Matrix.mul_assoc (R * R) R, hB, Matrix.mul_assoc, hmul, mul_one]
  have h := congrArg (fun M => M * (R.transpose * R.transpose))
    (cube_of_rotation R ⟨horth, hdet⟩)
  simp only [sub_mul, add_mul, smul_mul_assoc, one_mul] at h
  rw [hL, hA, hB] at h
  set t := Matrix.trace R with htdef
  set T := R.transpose with hTdef
  rw [h]
  abel

theorem sq_of_rotation (R : RotationMatrixType) (hR : isRotation R) :
    R * R = R.transpose + Matrix.trace R • R - Matrix.trace R • 1 := by
  obtain ⟨horth, hdet⟩ := hR
  have hmul : R * R.transpose = 1 := Matrix.mul_eq_one_comm.mp horth
  have hRT : isRotation R.transpose := by
    constructor
    · rw [Matrix.transpose_transpose]
      exact hmul
    · rw [Matrix.det_transpose]
      exact hdet
  have h := transpose_sq_of_rotation R.transpose hRT
  rwa [Matrix.transpose_transpose, Matrix.trace_transpose] at h

theorem sub_transpose_sq_of_rotation (R : RotationMatrixType) (hR : isRotation R) :
    (R - R.transpose) * (R - R.transpose)
      = (1 + Matrix.trace R) • (R + R.transpose)
        - (2 + 2 * Matrix.trace R) • 1 := by
  obtain ⟨horth, hdet⟩ := hR
  have hmul : R * R.transpose = 1 := Matrix.mul_eq_one_comm.mp horth
  have h1 := sq_of_rotation R ⟨horth, hdet⟩
  have h2 := transpose_sq_of_rotation R ⟨horth, hdet⟩
  rw [sub_mul, mul_sub, mul_sub, h1, h2, hmul, horth]
  module

theorem trace_le_three_of_rotation (R : RotationMatrixType) (hR : isRotation R) :
    Matrix.trace R ≤ 3 := by
  obtain ⟨horth, -⟩ := hR
  have h0 := congrFun (congrFun horth 0) 0
  have h1 := congrFun (congrFun horth 1) 1
  have h2 := congrFun (congrFun horth 2) 2
  simp [Matrix.mul_apply, Fin.sum_univ_three, Matrix.transpose_apply,
    Matrix.one_apply] at h0 h1 h2
  rw [Matrix.trace_fin_three]
  nlinarith [h0, h1, h2, sq_nonneg (R 0 0 - 1), sq_nonneg (R 1 1 - 1),
    sq_nonneg (R 2 2 - 1), sq_nonneg (R 1 0), sq_nonneg (R 2 0),
    sq_nonneg (R 0 1), sq_nonneg (R 2 1), sq_nonneg (R 0 2), sq_nonneg (R 1 2)]

theorem vee_sub_transpose_norm_sq (R : RotationMatrixType) (hR : isRotation R) :
    Vee (R - R.transpose) 0 ^ 2 + Vee (R - R.transpose) 1 ^ 2
      + Vee (R - R.transpose) 2 ^ 2
      = (1 + Matrix.trace R) * (3 - Matrix.trace R) := by
  have hcrux := sub_transpose_sq_of_rotation R hR
  have e00 := congrFun (congrFun hcrux 0) 0
  have e11 := congrFun (congrFun hcrux 1) 1
  have e22 := congrFun (congrFun hcrux 2) 2
  simp [Matrix.mul_apply, Fin.sum_univ_three, Matrix.sub_apply, Matrix.add_apply,
    Matrix.smul_apply, Matrix.one_apply, Matrix.transpose_apply, smul_eq_mul,
    Matrix.trace_fin_three] at e00 e11 e22
  simp [Vee, Matrix.sub_apply, Matrix.transpose_apply, Matrix.trace_fin_three]
  linear_combination (-(1:ℝ)/2) * e00 + (-(1:ℝ)/2) * e11 + (-(1:ℝ)/2) * e22

theorem neg_one_le_trace_of_rotation (R : RotationMatrixType) (hR : isRotation R) :
    -1 ≤ Matrix.trace R := by
  have h3 := trace_le_three_of_rotation R hR
  have hsq := vee_sub_transpose_norm_sq R hR
  simp [Vee, Matrix.sub_apply, Matrix.transpose_apply] at hsq
  nlinarith [sq_nonneg (R 2 1 - R 1 2), sq_nonneg (R 0 2 - R 2 0),
    sq_nonneg (R 1 0 - R 0 1), hsq, h3]

set_option maxHeartbeats 1000000 in
theorem eq_one_of_trace_eq_three (R : RotationMatrixType) (hR : isRotation R)
    (ht : Matrix.trace R = 3) : R = 1 := by
  obtain ⟨horth, -⟩ := hR
  have h0 := congrFun (congrFun horth 0) 0
  have h1 := congrFun (congrFun horth 1) 1
  have h2 := congrFun (congrFun horth 2) 2
  simp [Matrix.mul_apply, Fin.sum_univ_three, Matrix.transpose_apply,
    Matrix.one_apply] at h0 h1 h2
  rw [Matrix.trace_fin_three] at ht
  have hle0 : R 0 0 ≤ 1 := by nlinarith [sq_nonneg (R 0 0 - 1), sq_nonneg (R 1 0), sq_nonneg (R 2 0)]
  have hle1 : R 1 1 ≤ 1 := by nlinarith [sq_nonneg (R 1 1 - 1), sq_nonneg (R 0 1), sq_nonneg (R 2 1)]
  have hle2 : R 2 2 ≤ 1 := by nlinarith [sq_nonneg (R 2 2 - 1), sq_nonneg (R 0 2), sq_nonneg (R 1 2)]
  have hd0 : R 0 0 = 1 := by linarith
  have hd1 : R 1 1 = 1 := by linarith
  have hd2 : R 2 2 = 1 := by linarith
  have hz10 : R 1 0 = 0 := by
    have : R 1 0 ^ 2 = 0 := by nlinarith [sq_nonneg (R 2 0)]
    exact sq_eq_zero_iff.mp this
  have hz20 : R 2 0 = 0 := by
    have : R 2 0 ^ 2 = 0 := by nlinarith [sq_nonneg (R 1 0)]
    exact sq_eq_zero_iff.mp this
  have hz01 : R 0 1 = 0 := by
    have : R 0 1 ^ 2 = 0 := by nlinarith [sq_nonneg (R 2 1)]
    exact sq_eq_zero_iff.mp this
  have hz21 : R 2 1 = 0 := by
    have : R 2 1 ^ 2 = 0 := by nlinarith [sq_nonneg (R 0 1)]
    exact sq_eq_zero_iff.mp this
  have hz02 : R 0 2 = 0 := by
    have : R 0 2 ^ 2 = 0 := by nlinarith [sq_nonneg (R 1 2)]
    exact sq_eq_zero_iff.mp this
  have hz12 : R 1 2 = 0 := by
    have : R 1 2 ^ 2 = 0 := by nlinarith [sq_nonneg (R 0 2)]
    exact sq_eq_zero_iff.mp this
  ext i j
  fin_cases i <;> fin_cases j <;>
    simp [Matrix.one_apply] <;>
    assumption

set_option maxHeartbeats 1000000 in
theorem expMat_logVec (R : RotationMatrixType) (hR : isRotation R)
    (hang : rotAngle R < Real.pi) : ExpMat (LogVec R) = R := by
  have ht3 := trace_le_three_of_rotation R hR
  have htm1 := neg_one_le_trace_of_rotation R hR
  by_cases ht : Matrix.trace R = 3
  · rw [eq_one_of_trace_eq_three R hR ht, logVec_one_eq, expMat_zero_eq]
  · have htlt : Matrix.trace R < 3 := lt_of_le_of_ne ht3 ht
    have hclt : (Matrix.trace R - 1) / 2 < 1 := by linarith
    have hcge : -1 ≤ (Matrix.trace R - 1) / 2 := by linarith
    have hrr : rotAngle R = Real.arccos ((Matrix.trace R - 1) / 2) := rfl
    have hcos : Real.cos (rotAngle R) = (Matrix.trace R - 1) / 2 := by
      rw [hrr]
      exact Real.cos_arccos hcge (by linarith)
    have hcne : (Matrix.trace R - 1) / 2 ≠ -1 := by
      intro hc
      rw [hrr, hc, Real.arccos_neg_one] at hang
      exact lt_irrefl _ hang
    have hcgt : -1 < (Matrix.trace R - 1) / 2 := lt_of_le_of_ne hcge (Ne.symm hcne)
    have h1pt : 0 < 1 + Matrix.trace R := by linarith
    have hθpos : 0 < rotAngle R := by
      rw [hrr]
      exact Real.arccos_pos.mpr hclt
    have hθne : rotAngle R ≠ 0 := ne_of_gt hθpos
    have h1c2 : 0 ≤ 1 - ((Matrix.trace R - 1) / 2) ^ 2 := by nlinarith
    have hsin_sq : Real.sin (rotAngle R) ^ 2
        = 1 - ((Matrix.trace R - 1) / 2) ^ 2 := by
      rw [hrr, Real.sin_arccos, Real.sq_sqrt h1c2]
    have hsinpos : 0 < Real.sin (rotAngle R) :=
      Real.sin_pos_of_pos_of_lt_pi hθpos hang
    have hsinne : Real.sin (rotAngle R) ≠ 0 := ne_of_gt hsinpos
    have hanorm := vee_sub_transpose_norm_sq R hR
    have hklog : LogVec R
        = (rotAngle R / (2 * Real.sin (rotAngle R))) • Vee (R - R.transpose) := rfl
    have hentry : ∀ i, LogVec R i
        = rotAngle R / (2 * Real.sin (rotAngle R)) * Vee (R - R.transpose) i := by
      intro i
      rw [hklog]
      simp [Pi.smul_apply, smul_eq_mul]
    have expand : (rotAngle R / (2 * Real.sin (rotAngle R))) ^ 2
        * ((1 + Matrix.trace R) * (3 - Matrix.trace R)) = rotAngle R ^ 2 := by
      have h4 : (1 + Matrix.trace R) * (3 - Matrix.trace R)
          = 4 * (1 - ((Matrix.trace R - 1) / 2) ^ 2) := by ring
      rw [h4, ← hsin_sq]
      field_simp
      ring
    have hsum : LogVec R 0 ^ 2 + LogVec R 1 ^ 2 + LogVec R 2 ^ 2
        = rotAngle R ^ 2 := by
      rw [hentry 0, hentry 1, hentry 2]
      linear_combination
        (rotAngle R / (2 * Real.sin (rotAngle R))) ^ 2 * hanorm + expand
    have hnorm : tangentNorm (LogVec R) = rotAngle R := by
      have hdef : tangentNorm (LogVec R)
          = Real.sqrt (LogVec R 0 ^ 2 + LogVec R 1 ^ 2 + LogVec R 2 ^ 2) := rfl
      rw [hdef, hsum, Real.sqrt_sq (le_of_lt hθpos)]
    have hskew : (R - R.transpose).transpose = -(R - R.transpose) := by
      rw [Matrix.transpose_sub, Matrix.transpose_transpose, neg_sub]
    have hhat_a : Hat (Vee (R - R.transpose)) = R - R.transpose :=
      hat_vee_skew _ hskew
    have hhat : Hat (LogVec R)
        = (rotAngle R / (2 * Real.sin (rotAngle R))) • (R - R.transpose) := by
      rw [hklog, hat_smul, hhat_a]
    rw [ExpMat, hnorm, hhat]
    simp only [smul_smul, smul_mul_assoc, mul_smul_comm]
    have hco1 : Real.sin (rotAngle R) / rotAngle R
        * (rotAngle R / (2 * Real.sin (rotAngle R))) = 1 / 2 := by
      field_simp
      ring
    have hco2 : (1 - Real.cos (rotAngle R)) / rotAngle R ^ 2
        * (rotAngle R / (2 * Real.sin (rotAngle R))
          * (rotAngle R / (2 * Real.sin (rotAngle R))))
        = 1 / (2 * (1 + Matrix.trace R)) := by
      rw [hcos]
      field_simp
      linear_combination (-8 * rotAngle R ^ 2) * hsin_sq
    rw [hco1, hco2, sub_transpose_sq_of_rotation R hR]
    simp only [smul_sub, smul_smul]
    have hc3 : 1 / (2 * (1 + Matrix.trace R)) * (1 + Matrix.trace R)
        = 1 / 2 := by
      field_simp
      ring
    have hc4 : 1 / (2 * (1 + Matrix.trace R)) * (2 + 2 * Matrix.trace R)
        = 1 := by
      field_simp
      ring
    rw [hc3, hc4, one_smul]
    module

/-! Remaining small helper lemmas. -/

theorem isRotation_one : isRotation 1 := by
  constructor
  · rw [Matrix.transpose_one, one_mul]
  · exact Matrix.det_one

theorem defaultApproxTol_nonneg : (0:ℝ) ≤ defaultApproxTol := by
  norm_num [defaultApproxTol]

theorem rotAngle_one_eq : rotAngle (1 : RotationMatrixType) = 0 := by
  rw [rotAngle]
  have h : (Matrix.trace (1 : RotationMatrixType) - 1) / 2 = 1 := by
    rw [Matrix.trace_one]
    norm_num
  rw [h, Real.arccos_one]

theorem tangentNorm_zero_eq : tangentNorm (0 : Tangent) = 0 := by
  simp [tangentNorm]

theorem tangentNorm_twoPiVec : tangentNorm twoPiVec = 2 * Real.pi * ((1:ℤ):ℝ) := by
  have h : twoPiVec 0 ^ 2 + twoPiVec 1 ^ 2 + twoPiVec 2 ^ 2 = (2 * Real.pi) ^ 2 := by
    simp [twoPiVec]
  have hdef : tangentNorm twoPiVec
      = Real.sqrt (twoPiVec 0 ^ 2 + twoPiVec 1 ^ 2 + twoPiVec 2 ^ 2) := rfl
  rw [hdef, h, Real.sqrt_sq (by positivity)]
  push_cast
  ring

theorem isRotation_RpiZ : isRotation RpiZ := by
  constructor
  · ext i j
    fin_cases i <;> fin_cases j <;>
      simp [RpiZ, Matrix.mul_apply, Fin.sum_univ_three, Matrix.transpose_apply,
        Matrix.one_apply, Matrix.vecHead, Matrix.vecTail]
  · rw [Matrix.det_fin_three]
    norm_num [RpiZ]

theorem logVec_RpiZ_eq : LogVec RpiZ = 0 := by
  funext i
  fin_cases i <;>
    simp [LogVec, Vee, RpiZ, Matrix.sub_apply, Matrix.transpose_apply,
      Matrix.vecHead, Matrix.vecTail]

/-! Claim theorems. -/

/-- C1: for every 3-vector v, Hat(v) is exactly the 3 by 3 matrix
[[0, -v2, v1], [v2, 0, -v0], [-v1, v0, 0]], entry by entry. -/
theorem hat_matches_spec (v : Tangent) :
    Hat v 0 0 = 0 ∧ Hat v 0 1 = -(v 2) ∧ Hat v 0 2 = v 1
      ∧ Hat v 1 0 = v 2 ∧ Hat v 1 1 = 0 ∧ Hat v 1 2 = -(v 0)
      ∧ Hat v 2 0 = -(v 1) ∧ Hat v 2 1 = v 0 ∧ Hat v 2 2 = 0 := by
  refine ⟨?_, ?_, ?_, ?_, ?_, ?_, ?_, ?_, ?_⟩ <;> simp [Hat]

/-- C2: Hat and Vee are mutually inverse: Vee(Hat(v)) = v exactly for every
3-vector v, and Hat(Vee(M)) = M exactly for every skew-symmetric M. -/
theorem hat_vee_inverse_pair :
    (∀ v : Tangent, Vee (Hat v) = v)
      ∧ (∀ M : RotationMatrixType, M.transpose = -M → Hat (Vee M) = M) :=
  ⟨vee_hat, fun M h => hat_vee_skew M h⟩

/-- Witness for C2 at the concrete vector (1, 2, 3) and a concrete
skew-symmetric matrix. -/
theorem hat_vee_inverse_pair_witness :
    Vee (Hat ![(1:ℝ), 2, 3]) = ![(1:ℝ), 2, 3]
      ∧ (skewExample.transpose = -skewExample ∧ Hat (Vee skewExample) = skewExample) := by
  have hskew : skewExample.transpose = -skewExample := by
    ext i j
    fin_cases i <;> fin_cases j <;>
      simp [skewExample, Matrix.transpose_apply, Matrix.neg_apply,
        Matrix.vecHead, Matrix.vecTail]
  exact ⟨hat_vee_inverse_pair.1 ![(1:ℝ), 2, 3],
    hskew, hat_vee_inverse_pair.2 skewExample hskew⟩

/-- C3: cross-representation equality returns true exactly when the two
rotation-matrix images are equal entry by entry, and two elements with
different storage payloads can compare equal. -/
theorem cross_rep_eq_iff_rotation_matrix_eq :
    (∀ a b : SO3El, a.valid → b.valid →
        (a.eqCross b ↔ a.toRotationMatrix = b.toRotationMatrix))
      ∧ (∃ a b : SO3El, a.rep ≠ b.rep ∧ a.valid ∧ b.valid ∧ a.eqCross b) := by
  constructor
  · intro a b _ _
    constructor
    · intro h
      ext i j
      exact h i j
    · intro h i j
      rw [h]
  · refine ⟨SO3El.mat 1, SO3El.vec 0, ?_, isRotation_one, trivial, ?_⟩
    · intro h
      cases h
    · intro i j
      simp [SO3El.toRotationMatrix, expMat_zero_eq]

/-- Witness for C3 at two concrete valid elements. -/
theorem cross_rep_eq_witness :
    (SO3El.mat 1).eqCross (SO3El.vec 0) ↔
      (SO3El.mat 1).toRotationMatrix = (SO3El.vec 0).toRotationMatrix :=
  cross_rep_eq_iff_rotation_matrix_eq.1 (SO3El.mat 1) (SO3El.vec 0)
    isRotation_one trivial

/-- C4: for every valid rotation in either representation, the product of the
element with its getInverse is approximately the Identity of that
representation under the default tolerance (the embedding of getInverse is a
pure function returning a new value, so the receiver is unchanged). -/
theorem mul_inverse_isApprox_identity (a : SO3El) (ha : a.valid) :
    (a.mul a.getInverse).isApproxDefault (identityOf a.rep) := by
  cases a with
  | mat R =>
      obtain ⟨horth, hdet⟩ := ha
      have hmul : R * R.transpose = 1 := Matrix.mul_eq_one_comm.mp horth
      have hres : (SO3El.mat R).mul (SO3El.mat R).getInverse = SO3El.mat 1 := by
        simp [SO3El.mul, SO3El.getInverse, SO3El.toRotationMatrix, hmul]
      rw [hres]
      intro i j
      simp [SO3El.toRotationMatrix, SO3El.rep, identityOf, defaultApproxTol_nonneg]
  | vec v =>
      have hprod : ExpMat v * ExpMat (-v) = 1 := expMat_mul_expMat_neg v
      have hres : (SO3El.vec v).mul (SO3El.vec v).getInverse
          = SO3El.vec (LogVec 1) := by
        simp [SO3El.mul, SO3El.getInverse, SO3El.toRotationMatrix, hprod]
      rw [hres, logVec_one_eq]
      intro i j
      simp [SO3El.toRotationMatrix, SO3El.rep, identityOf, expMat_zero_eq,
        defaultApproxTol_nonneg]

/-- Witness for C4 at the identity rotation matrix. -/
theorem mul_inverse_isApprox_identity_witness :
    ((SO3El.mat 1).mul (SO3El.mat 1).getInverse).isApproxDefault
      (identityOf (SO3El.mat 1).rep) :=
  mul_inverse_isApprox_identity (SO3El.mat 1) isRotation_one

/-- C5: Exp and Log are inverse on the principal domain: Log(Exp(v)) is
componentwise within 1e-6 of v when the norm of v is below pi, and
Exp(Log(R)) is approximately R when the rotation angle of R is below pi. -/
theorem exp_log_inverse_on_principal_domain :
    (∀ v : Tangent, tangentNorm v < Real.pi →
        vecIsApprox (LogVec (ExpMat v)) v (1e-6))
      ∧ (∀ R : RotationMatrixType, isRotation R → rotAngle R < Real.pi →
          matIsApprox (ExpMat (LogVec R)) R (1e-6)) := by
  constructor
  · intro v hv
    rw [logVec_expMat v hv]
    intro i
    norm_num
  · intro R hR hang
    rw [expMat_logVec R hR hang]
    intro i j
    norm_num

/-- Witness for C5 at the zero tangent vector and the identity rotation. -/
theorem exp_log_inverse_witness :
    vecIsApprox (LogVec (ExpMat 0)) 0 (1e-6)
      ∧ matIsApprox (ExpMat (LogVec 1)) 1 (1e-6) := by
  constructor
  · apply exp_log_inverse_on_principal_domain.1 0
    rw [tangentNorm_zero_eq]
    exact Real.pi_pos
  · apply exp_log_inverse_on_principal_domain.2 1 isRotation_one
    rw [rotAngle_one_eq]
    exact Real.pi_pos

/-- C6 (amended): round-trip conversion through any representation returns an
approximately equal rotation for every valid rotation whose principal rotation
angle is strictly below pi; at angle exactly pi the rotation-vector leg loses
the rotation, see the counterexample. -/
theorem roundtrip_conversion_isApprox (A B : SO3Rep) (r : SO3El)
    (hrep : r.rep = A) (hval : r.valid)
    (hang : rotAngle r.toRotationMatrix < Real.pi) :
    (convertTo A (convertTo B r)).isApproxDefault r := by
  subst hrep
  cases r with
  | mat R =>
      cases B with
      | rotMatrix =>
          intro i j
          simp [convertTo, SO3El.rep, SO3El.toRotationMatrix,
            defaultApproxTol_nonneg]
      | rotVector =>
          have hlog : ExpMat (LogVec R) = R := expMat_logVec R hval hang
          intro i j
          simp [convertTo, SO3El.rep, SO3El.toRotationMatrix, hlog,
            defaultApproxTol_nonneg]
  | vec v =>
      cases B with
      | rotMatrix =>
          have hRrot : isRotation (ExpMat v) := isRotation_expMat v
          have hlog : ExpMat (LogVec (ExpMat v)) = ExpMat v :=
            expMat_logVec _ hRrot hang
          intro i j
          simp [convertTo, SO3El.rep, SO3El.toRotationMatrix, hlog,
            defaultApproxTol_nonneg]
      | rotVector =>
          intro i j
          simp [convertTo, SO3El.rep, SO3El.toRotationMatrix,
            defaultApproxTol_nonneg]

/-- Witness for C6 at the identity rotation matrix converted through the
rotation-vector representation. -/
theorem roundtrip_conversion_isApprox_witness :
    (convertTo SO3Rep.rotMatrix
        (convertTo SO3Rep.rotVector (SO3El.mat 1))).isApproxDefault
      (SO3El.mat 1) := by
  apply roundtrip_conversion_isApprox SO3Rep.rotMatrix SO3Rep.rotVector
    (SO3El.mat 1) rfl isRotation_one
  show rotAngle (SO3El.mat 1).toRotationMatrix < Real.pi
  rw [SO3El.toRotationMatrix, rotAngle_one_eq]
  exact Real.pi_pos

/-- Counterexample for C6 as stated: the rotation by pi about the z axis is a
valid rotation, but its matrix to rotation-vector to matrix round trip yields
the identity, which is not within the default tolerance of the original. -/
theorem roundtrip_conversion_fails_at_angle_pi :
    (SO3El.mat RpiZ).valid
      ∧ ¬ (convertTo (SO3El.mat RpiZ).rep
            (convertTo SO3Rep.rotVector (SO3El.mat RpiZ))).isApproxDefault
          (SO3El.mat RpiZ) := by
  refine ⟨isRotation_RpiZ, ?_⟩
  intro hcontra
  have hconv : convertTo (SO3El.mat RpiZ).rep
      (convertTo SO3Rep.rotVector (SO3El.mat RpiZ)) = SO3El.mat 1 := by
    simp [convertTo, SO3El.rep, SO3El.toRotationMatrix, logVec_RpiZ_eq,
      expMat_zero_eq]
  rw [hconv] at hcontra
  have h00 := hcontra 0 0
  simp [SO3El.toRotationMatrix, RpiZ, Matrix.one_apply, defaultApproxTol,
    Matrix.vecHead, Matrix.vecTail] at h00
  norm_num at h00

/-- C7: canonical is idempotent, an element already in the canonical
representation is returned unchanged, and the result of canonical is always in
the canonical representation, so the second call performs no representation
change. -/
theorem canonical_idempotent (r : SO3El) :
    r.canonical.canonical = r.canonical
      ∧ (r.isCanonical = true → r.canonical = r)
      ∧ r.canonical.isCanonical = true := by
  cases r with
  | mat R => exact ⟨rfl, fun _ => rfl, rfl⟩
  | vec v =>
      refine ⟨rfl, ?_, rfl⟩
      intro h
      cases h

/-- Witness for C7 at a rotation-vector element and a canonical element. -/
theorem canonical_idempotent_witness :
    (SO3El.vec 0).canonical.canonical = (SO3El.vec 0).canonical
      ∧ (SO3El.mat 1).canonical = SO3El.mat 1 :=
  ⟨(canonical_idempotent (SO3El.vec 0)).1,
    (canonical_idempotent (SO3El.mat 1)).2.1 rfl⟩

/-- C8 (amended): the Identity of every representation satisfies isIdentity,
and Exp of a tangent vector of norm 2 pi k (k a nonzero integer) is the
identity in the canonical rotation-matrix representation.  In the
rotation-vector representation Exp stores the vector itself, which is not the
zero identity encoding, see the counterexample. -/
theorem identity_detection :
    (∀ rep : SO3Rep, (identityOf rep).isIdentity)
      ∧ (∀ (v : Tangent) (k : ℤ), k ≠ 0 → tangentNorm v = 2 * Real.pi * k →
          (ExpIn SO3Rep.rotMatrix v).isIdentity) := by
  constructor
  · intro rep
    cases rep <;> rfl
  · intro v k hk hnorm
    have hsin : Real.sin (tangentNorm v) = 0 := by
      rw [hnorm]
      have h : 2 * Real.pi * (k:ℝ) = ((2*k : ℤ) : ℝ) * Real.pi := by
        push_cast
        ring
      rw [h, Real.sin_int_mul_pi]
    have hcos : Real.cos (tangentNorm v) = 1 := by
      rw [hnorm]
      have h : 2 * Real.pi * (k:ℝ) = ((k : ℤ) : ℝ) * (2 * Real.pi) := by
        ring
      rw [h, Real.cos_int_mul_two_pi]
    have hexp : ExpMat v = 1 := by
      rw [ExpMat, hsin, hcos]
      simp
    show SO3El.mat (ExpMat v) = identityOf (SO3El.mat (ExpMat v)).rep
    rw [hexp]
    rfl

/-- Witness for C8 at the rotation-vector identity and the vector of norm
2 pi in the canonical representation. -/
theorem identity_detection_witness :
    (identityOf SO3Rep.rotVector).isIdentity
      ∧ (ExpIn SO3Rep.rotMatrix twoPiVec).isIdentity :=
  ⟨identity_detection.1 SO3Rep.rotVector,
    identity_detection.2 twoPiVec 1 (by norm_num) tangentNorm_twoPiVec⟩

/-- Counterexample for C8 as stated: in the rotation-vector representation,
Exp of the vector of norm 2 pi stores the vector itself, which is not the zero
identity encoding, so isIdentity is false there. -/
theorem exp_two_pi_not_identity_in_rotation_vector_rep :
    tangentNorm twoPiVec = 2 * Real.pi * ((1:ℤ):ℝ)
      ∧ (1:ℤ) ≠ 0
      ∧ ¬ (ExpIn SO3Rep.rotVector twoPiVec).isIdentity := by
  refine ⟨tangentNorm_twoPiVec, by norm_num, ?_⟩
  intro h
  have hv : twoPiVec = (0 : Tangent) := by
    simpa [ExpIn, SO3El.isIdentity, SO3El.rep, identityOf] using h
  have h0 := congrFun hv 0
  simp [twoPiVec] at h0
  exact Real.pi_ne_zero h0

/-- C9: isApprox is consistent regardless of operand order for every
tolerance, and the default tolerance is 1e-6. -/
theorem isApprox_symm_and_default_tol :
    (∀ a b : SO3El, a.valid → b.valid → ∀ tol : ℝ,
        (a.isApprox b tol ↔ b.isApprox a tol))
      ∧ defaultApproxTol = 1e-6
      ∧ (∀ a b : SO3El, a.isApproxDefault b ↔ a.isApprox b (1e-6)) := by
  refine ⟨?_, rfl, fun a b => Iff.rfl⟩
  intro a b _ _ tol
  constructor <;>
    · intro h i j
      rw [abs_sub_comm]
      exact h i j

/-- Witness for C9 at two concrete valid elements. -/
theorem isApprox_symm_witness :
    (SO3El.mat 1).isApprox (SO3El.vec 0) 1 ↔
      (SO3El.vec 0).isApprox (SO3El.mat 1) 1 :=
  isApprox_symm_and_default_tol.1 (SO3El.mat 1) (SO3El.vec 0)
    isRotation_one trivial 1

/-- C10: Hat(v) is skew-symmetric for every v: its transpose equals its
negation, so the output of Hat always satisfies the precondition of Vee. -/
theorem hat_skew_symmetric (v : Tangent) : (Hat v).transpose = -(Hat v) :=
  hat_transpose_eq_neg v

end

end DartMath
